import Mathlib

/-!
Verification development for the `replacer.py` translation tool.

All text is modelled as `List Char`.  Python string functions are embedded
as executable Lean functions:

* `normalize`   embeds `normalize` (tag stripping, punctuation stripping,
  whitespace trim, ASCII lowercasing; `str.lower`/`str.strip` are modelled
  for the ASCII range).
* `loadMapping` embeds `load_mapping`, acting on the already-parsed list of
  CSV rows (the `csv.reader` output).
* `translate`   embeds `translate`, acting on the list of input lines and
  returning the output lines plus the statistics counters that the code
  maintains (`total`, `replaced`, `missing`).
-/

namespace Replacer

abbrev Line := List Char

/-- Whitespace class used by `str.strip()` and the regex class `\s`
(ASCII model: space, tab, newline, carriage return, vertical tab, form feed;
given by code points). -/
def isWs (c : Char) : Bool :=
  c.toNat = 32 || c.toNat = 9 || c.toNat = 10 || c.toNat = 13 ||
  c.toNat = 11 || c.toNat = 12

/-- The punctuation class of the regex `[\"\',.?!:;()]` in `normalize`:
the code points of `" ' , . ? ! : ; ( )`. -/
def isPunctB (c : Char) : Bool :=
  c.toNat = 34 || c.toNat = 39 || c.toNat = 44 || c.toNat = 46 || c.toNat = 63 ||
  c.toNat = 33 || c.toNat = 58 || c.toNat = 59 || c.toNat = 40 || c.toNat = 41

/-- ASCII model of `str.lower`: maps `A`-`Z` (code points 65-90) to
`a`-`z` (97-122), everything else fixed. -/
def lowerChar (c : Char) : Char :=
  if 65 ≤ c.toNat ∧ c.toNat ≤ 90 then Char.ofNat (c.toNat + 32) else c

/-- After an opening `<[^>]` of a tag match: scan for the first `>`;
returns the remainder after it (the continuation point of `re.sub`). -/
def afterTagAux : List Char → Option (List Char)
  | [] => none
  | d :: ds => if d = '>' then some ds else afterTagAux ds

/-- Whether `[^>]+>` matches at the start of `cs` (the part of the regex
`<[^>]+>` after the `<`); returns the remainder after the match. -/
def afterTag : List Char → Option (List Char)
  | [] => none
  | d :: ds => if d = '>' then none else afterTagAux ds

/-- Fuelled embedding of `re.sub(r'<[^>]+>', '', text)`: left-to-right
removal of every non-overlapping tag match.  The fuel is only there to make
the recursion structural; `stripTags` supplies enough fuel. -/
def stripTagsF : Nat → List Char → List Char
  | 0, _ => []
  | _, [] => []
  | fuel + 1, c :: cs =>
    if c = '<' then
      match afterTag cs with
      | some rest => stripTagsF fuel rest
      | none => c :: stripTagsF fuel cs
    else c :: stripTagsF fuel cs

def stripTags (l : List Char) : List Char := stripTagsF l.length l

/-- Embedding of `re.sub(r'[\"\',.?!:;()]|', '', text)` (the trailing empty
alternative substitutes the empty string and has no effect). -/
def stripPunct (l : List Char) : List Char := l.filter (fun c => !isPunctB c)

def lstrip (l : Line) : Line := l.dropWhile isWs

def rstrip (l : Line) : Line := (l.reverse.dropWhile isWs).reverse

/-- Embedding of `str.strip()`. -/
def pyStrip (l : Line) : Line := rstrip (lstrip l)

def lowerList (l : Line) : Line := l.map lowerChar

/-- Embedding of `normalize`: strip tags, strip punctuation, trim, lowercase. -/
def normalize (l : Line) : Line := lowerList (pyStrip (stripPunct (stripTags l)))

example : normalize "<Emphasis>Fire Shard</Emphasis>".data = "fire shard".data := by decide
example : normalize "fire shard".data = "fire shard".data := by decide
example : normalize "  Fire, Shard!  ".data = "fire shard".data := by decide

/-! ### Python dictionaries (observed through `get`) -/

/-- A Python `dict` with string keys and string values, observed only
through `get`; updates are last-write-wins. -/
abbrev DictSS := List (Line × Line)

/-- `d.get(k)` (`none` models Python `None`). -/
def dget (m : DictSS) (k : Line) : Option Line :=
  (m.find? (fun p => p.1 = k)).map (fun p => p.2)

/-- `d[k] = v`: overwrites any previous binding of `k`. -/
def dset (m : DictSS) (k v : Line) : DictSS :=
  (k, v) :: m.filter (fun p => !(p.1 = k : Bool))

/-! ### `load_mapping` -/

/-- `str.strip('"')`: removes every leading and every trailing `"`. -/
def stripQuotes (l : Line) : Line :=
  ((l.dropWhile (fun c => c = '"')).reverse.dropWhile (fun c => c = '"')).reverse

/-- `list.index(v)`: index of the first occurrence, `none` when absent
(Python raises `ValueError` there). -/
def colIndex (row : List Line) (v : Line) : Option Nat :=
  match row with
  | [] => none
  | c :: cs => if c = v then some 0 else (colIndex cs v).map (fun i => i + 1)

/-- `[names.index(v) for v in val_cols]`: `none` as soon as one is absent. -/
def colIndices (names : List Line) : List Line → Option (List Nat)
  | [] => some []
  | v :: vs =>
    match colIndex names v, colIndices names vs with
    | some i, some is => some (i :: is)
    | _, _ => none

/-- `max(key_idx, *val_idxs)`. -/
def rowLimit (ki : Nat) (vis : List Nat) : Nat := vis.foldl max ki

/-- The body of the `for row in reader` loop of `load_mapping`.
`vis` is nonempty in every run the program performs (Python raises on an
empty `val_cols`); `vis.headD 0` stands for `val_idxs[0]`. -/
def processRow (ki : Nat) (vis : List Nat) (normalizeKey : Bool)
    (m : DictSS) (row : List Line) : DictSS :=
  if row.length ≤ rowLimit ki vis then m
  else if stripQuotes (row.getD ki []) = [] then m
  else if normalizeKey then
    vis.foldl
      (fun acc vi =>
        if stripQuotes (row.getD vi []) = [] then acc
        else dset acc (normalize (stripQuotes (row.getD vi []))) (stripQuotes (row.getD ki [])))
      m
  else if stripQuotes (row.getD (vis.headD 0) []) = [] then m
  else dset m (stripQuotes (row.getD ki [])) (stripQuotes (row.getD (vis.headD 0) []))

inductive LoadErr where
  | notEnoughRows  -- `next(reader)` raised `StopIteration`
  | keyColMissing  -- `cols.index(key_col)` raised `ValueError`
  | valColMissing  -- `names.index(v)` raised `ValueError`
  | ioError        -- `open(csv_path, ...)` raised `OSError`
  deriving DecidableEq

/-- Embedding of `load_mapping` on the parsed row list of the CSV file. -/
def loadMapping (rows : List (List Line)) (keyCol : Line) (valCols : List Line)
    (normalizeKey : Bool) : Except LoadErr DictSS :=
  match rows with
  | cols :: names :: _discard :: data =>
    match colIndex cols keyCol with
    | none => .error .keyColMissing
    | some ki =>
      match colIndices names valCols with
      | none => .error .valColMissing
      | some vis => .ok (data.foldl (processRow ki vis normalizeKey) [])
  | _ => .error .notEnoughRows

/-- `load_mapping` including the `open` call: `none` models a file that
cannot be opened. -/
def loadMappingIO (file : Option (List (List Line))) (keyCol : Line)
    (valCols : List Line) (normalizeKey : Bool) : Except LoadErr DictSS :=
  match file with
  | none => .error .ioError
  | some rows => loadMapping rows keyCol valCols normalizeKey

/-! ### `translate` -/

/-- The mutable state of the `for line in fin` loop: the `msgid` variable
and the three statistics counters.  The written output lines are collected
separately by `runT`. -/
structure TState where
  pending : Option Line
  total : Nat
  replaced : Nat
  missing : List Line
  deriving DecidableEq

/-- Python truthiness of the `msgid` variable (`None` and `""` are falsy). -/
def truthy : Option Line → Bool
  | none => false
  | some m => !m.isEmpty

/-- The characters of `msgstr ""`. -/
def sentinelChars : Line := ['m', 's', 'g', 's', 't', 'r', ' ', '"', '"']

/-- `line.strip() == 'msgstr ""'`. -/
def isSentinelB (l : Line) : Bool := pyStrip l = sentinelChars

/-- The characters of `msgid ` (with the trailing space). -/
def msgidPfx : Line := ['m', 's', 'g', 'i', 'd', ' ']

/-- `line.startswith('msgid ')`. -/
def startsWithMsgid (l : Line) : Bool := l.take 6 = msgidPfx

/-- The prefix of `seg` up to (excluding) its last `"`; `none` when `seg`
contains no `"`.  This is how the greedy `(.*)\"` picks its match. -/
def beforeLastQuote : Line → Option Line
  | [] => none
  | c :: cs =>
    match beforeLastQuote cs with
    | some r => some (c :: r)
    | none => if c = '"' then some [] else none

/-- Embedding of `re.match(r'msgid\s+\"(.*)\"', line)`: the captured group,
or `none` when the regex does not match.  `.` does not match a newline, so
the closing quote is the last `"` before the first newline. -/
def matchMsgid (l : Line) : Option Line :=
  match l with
  | 'm' :: 's' :: 'g' :: 'i' :: 'd' :: rest =>
    if (rest.takeWhile isWs).isEmpty then none
    else
      match rest.dropWhile isWs with
      | '"' :: rest2 => beforeLastQuote (rest2.takeWhile (fun c => !(c = '\n' : Bool)))
      | _ => none
  | _ => none

/-- `item_id = eng_map.get(normalize(msgid))` followed by
`tgt_name = id_map.get(item_id, '') if item_id else ''`;
the result `[]` models the falsy `''`. -/
def resolveTarget (eng idm : DictSS) (m : Line) : Line :=
  match dget eng (normalize m) with
  | none => []
  | some id => if id = [] then [] else (dget idm id).getD []

/-- `f'msgstr "{tgt_name}"\n'`. -/
def msgstrLine (t : Line) : Line :=
  ['m', 's', 'g', 's', 't', 'r', ' ', '"'] ++ t ++ ['"', '\n']

/-- The guard `msgid and line.strip() == 'msgstr ""'`. -/
def examinedB (st : TState) (l : Line) : Bool :=
  truthy st.pending && isSentinelB l

/-- One iteration of the `for line in fin` loop: the written line and the
next state. -/
def stepT (eng idm : DictSS) (st : TState) (l : Line) : Line × TState :=
  if startsWithMsgid l then
    (l, { st with pending := matchMsgid l })
  else if examinedB st l then
    if (resolveTarget eng idm (st.pending.getD [])).isEmpty then
      (l, { pending := none, total := st.total + 1, replaced := st.replaced,
            missing := st.missing ++ [st.pending.getD []] })
    else
      (msgstrLine (resolveTarget eng idm (st.pending.getD [])),
       { pending := none, total := st.total + 1,
         replaced := st.replaced + 1, missing := st.missing })
  else
    (l, st)

/-- The whole loop, collecting the written lines. -/
def runT (eng idm : DictSS) : TState → List Line → List Line × TState
  | st, [] => ([], st)
  | st, l :: ls =>
    let p := stepT eng idm st l
    let r := runT eng idm p.2 ls
    (p.1 :: r.1, r.2)

def initState : TState := ⟨none, 0, 0, []⟩

/-- Embedding of `translate`: input file content in, output file content and
final statistics out. -/
def translate (eng idm : DictSS) (lines : List Line) : List Line × TState :=
  runT eng idm initState lines

example :
    translate [("fire shard".data, "1001".data)] [("1001".data, "Feuerscherbe".data)]
      ["msgid \"Fire Shard\"\n".data, "msgstr \"\"\n".data]
    = (["msgid \"Fire Shard\"\n".data, "msgstr \"Feuerscherbe\"\n".data],
       ⟨none, 1, 1, []⟩) := by decide

example :
    translate [] [] ["msgid \"Fire Shard\"\n".data, "msgstr \"\"\n".data]
    = (["msgid \"Fire Shard\"\n".data, "msgstr \"\"\n".data],
       ⟨none, 1, 0, ["Fire Shard".data]⟩) := by decide

-- the pending msgid survives intervening lines (the code never clears it there)
example :
    translate [("a".data, "1".data)] [("1".data, "T".data)]
      ["msgid \"a\"\n".data, "# comment\n".data, "msgstr \"\"\n".data]
    = (["msgid \"a\"\n".data, "# comment\n".data, "msgstr \"T\"\n".data],
       ⟨none, 1, 1, []⟩) := by decide

-- msgid "" is falsy: the following sentinel is not examined
example :
    translate [] [] ["msgid \"\"\n".data, "msgstr \"\"\n".data]
    = (["msgid \"\"\n".data, "msgstr \"\"\n".data], ⟨some [], 0, 0, []⟩) := by decide

/-! ### Facts about `lowerChar` -/

theorem toNat_ofNat_valid {n : Nat} (h : Nat.isValidChar n) :
    (Char.ofNat n).toNat = n := by
  rw [Char.ofNat, dif_pos h]
  simp [Char.ofNatAux, Char.toNat, UInt32.toNat, BitVec.toNat_ofNatLt]

theorem char_eq_iff_toNat {c d : Char} : c = d ↔ c.toNat = d.toNat :=
  ⟨fun h => h ▸ rfl, fun h => Char.ext (UInt32.ext h)⟩

theorem lowerChar_toNat (c : Char) :
    (lowerChar c).toNat
      = if 65 ≤ c.toNat ∧ c.toNat ≤ 90 then c.toNat + 32 else c.toNat := by
  unfold lowerChar
  split_ifs with h
  · exact toNat_ofNat_valid (Or.inl (by omega))
  · rfl

theorem lowerChar_idem (c : Char) : lowerChar (lowerChar c) = lowerChar c := by
  apply char_eq_iff_toNat.mpr
  rw [lowerChar_toNat (lowerChar c), lowerChar_toNat c]
  split_ifs <;> omega

theorem isWs_lowerChar (c : Char) : isWs (lowerChar c) = isWs c := by
  rw [Bool.eq_iff_iff]
  simp only [isWs, Bool.or_eq_true, decide_eq_true_eq, lowerChar_toNat]
  split_ifs <;> omega

theorem isPunctB_lowerChar (c : Char) : isPunctB (lowerChar c) = isPunctB c := by
  rw [Bool.eq_iff_iff]
  simp only [isPunctB, Bool.or_eq_true, decide_eq_true_eq, lowerChar_toNat]
  split_ifs <;> omega

theorem lowerChar_eq_lt (c : Char) : lowerChar c = '<' ↔ c = '<' := by
  have h60 : ('<').toNat = 60 := by decide
  rw [char_eq_iff_toNat, char_eq_iff_toNat (d := '<'), h60, lowerChar_toNat]
  split_ifs <;> omega

theorem lowerChar_eq_gt (c : Char) : lowerChar c = '>' ↔ c = '>' := by
  have h62 : ('>').toNat = 62 := by decide
  rw [char_eq_iff_toNat, char_eq_iff_toNat (d := '>'), h62, lowerChar_toNat]
  split_ifs <;> omega

/-! ### Facts about `stripQuotes` -/

theorem dropWhile_quote_replicate (n : Nat) (r : Line) :
    (List.replicate n '"' ++ r).dropWhile (fun c => c = '"')
      = r.dropWhile (fun c => c = '"') := by
  induction n with
  | zero => rfl
  | succ n ih => simp [List.replicate_succ, List.dropWhile, ih]

theorem dropWhile_quote_replicate_nil (n : Nat) :
    (List.replicate n '"').dropWhile (fun c => c = '"') = [] := by
  induction n with
  | zero => rfl
  | succ n ih => simp [List.replicate_succ, List.dropWhile, ih]

/-- `str.strip('"')` removes exactly the maximal leading and trailing runs
of `"`. -/
theorem stripQuotes_wrap (a b : Nat) (core : Line)
    (h1 : core.head? ≠ some '"') (h2 : core.getLast? ≠ some '"') :
    stripQuotes (List.replicate a '"' ++ core ++ List.replicate b '"') = core := by
  unfold stripQuotes
  rw [List.append_assoc, dropWhile_quote_replicate]
  cases core with
  | nil =>
    rw [List.nil_append, dropWhile_quote_replicate_nil]
    rfl
  | cons c0 core' =>
    have hc0 : ¬(c0 = '"') := by
      intro h; apply h1; simp [h]
    have hdrop : ((c0 :: core') ++ List.replicate b '"').dropWhile (fun c => c = '"')
        = (c0 :: core') ++ List.replicate b '"' := by
      simp [List.dropWhile, hc0]
    rw [hdrop, List.reverse_append, List.reverse_replicate,
      dropWhile_quote_replicate]
    obtain ⟨d, rest, hr⟩ : ∃ d rest, (c0 :: core').reverse = d :: rest := by
      cases hrev : (c0 :: core').reverse with
      | nil => simp at hrev
      | cons d rest => exact ⟨d, rest, rfl⟩
    have hd : ¬(d = '"') := by
      intro h
      apply h2
      have hh : (c0 :: core').reverse.head? = some d := by rw [hr]; rfl
      rw [List.head?_reverse] at hh
      rw [hh, h]
    have hstop : ((d :: rest).dropWhile (fun c => c = '"')) = d :: rest := by
      simp [List.dropWhile, hd]
    rw [hr, hstop, ← hr, List.reverse_reverse]

/-! ### Facts about `colIndex`, `colIndices`, `dget`, `dset` -/

theorem colIndex_eq_none {row : List Line} {v : Line} (h : v ∉ row) :
    colIndex row v = none := by
  induction row with
  | nil => rfl
  | cons c cs ih =>
    have hc : ¬(c = v) := fun hcv => h (by simp [hcv])
    have hcs : v ∉ cs := fun hm => h (List.mem_cons_of_mem _ hm)
    simp [colIndex, hc, ih hcs]

theorem colIndices_eq_none {names : List Line} {valCols : List Line} {v : Line}
    (hmem : v ∈ valCols) (habs : v ∉ names) :
    colIndices names valCols = none := by
  induction valCols with
  | nil => cases hmem
  | cons w vs ih =>
    rcases List.mem_cons.mp hmem with h | h
    · subst h
      simp [colIndices, colIndex_eq_none habs]
    · cases hw : colIndex names w with
      | none => simp [colIndices, hw]
      | some i => simp [colIndices, hw, ih h]

theorem dget_dset_self (m : DictSS) (k v : Line) : dget (dset m k v) k = some v := by
  simp [dget, dset, List.find?]

theorem find?_filter_ne {k k' : Line} (hne : k' ≠ k) (m : DictSS) :
    (m.filter (fun p => !(p.1 = k : Bool))).find? (fun p => p.1 = k')
      = m.find? (fun p => p.1 = k') := by
  have hne' : ¬(k = k') := fun h => hne h.symm
  induction m with
  | nil => rfl
  | cons q qs ih =>
    by_cases hq : q.1 = k'
    · have hqk : ¬(q.1 = k) := by rw [hq]; exact hne
      simp [List.filter, List.find?, hq, hqk, hne, hne']
    · by_cases hqk : q.1 = k
      · simp [List.filter, List.find?, hq, hqk, hne, hne', ih]
      · simp [List.filter, List.find?, hq, hqk, hne, hne', ih]

theorem dget_dset_ne (m : DictSS) (k v k' : Line) (hne : k' ≠ k) :
    dget (dset m k v) k' = dget m k' := by
  have hk : ¬(k = k') := fun h => hne h.symm
  simp [dget, dset, List.find?, hk, find?_filter_ne hne]

/-! ### Facts about `processRow` (identifier-key mode) -/

theorem processRow_set {ki : Nat} {vis : List Nat} {m : DictSS} {row : List Line}
    {k v : Line}
    (hlen : rowLimit ki vis < row.length)
    (hid : stripQuotes (row.getD ki []) = k) (hk : k ≠ [])
    (hval : stripQuotes (row.getD (vis.headD 0) []) = v) (hv : v ≠ []) :
    processRow ki vis false m row = dset m k v := by
  have h1 : ¬(row.length ≤ rowLimit ki vis) := by omega
  unfold processRow
  rw [if_neg h1, hid, if_neg hk, if_neg Bool.false_ne_true, hval, if_neg hv]

theorem processRow_preserve {ki : Nat} {vis : List Nat} {m : DictSS} {row : List Line}
    {k : Line} (hne : stripQuotes (row.getD ki []) ≠ k) :
    dget (processRow ki vis false m row) k = dget m k := by
  unfold processRow
  by_cases h1 : row.length ≤ rowLimit ki vis
  · rw [if_pos h1]
  · rw [if_neg h1]
    by_cases h2 : stripQuotes (row.getD ki []) = []
    · rw [if_pos h2]
    · rw [if_neg h2, if_neg Bool.false_ne_true]
      by_cases h3 : stripQuotes (row.getD (vis.headD 0) []) = []
      · rw [if_pos h3]
      · rw [if_neg h3]
        exact dget_dset_ne _ _ _ _ (fun h => hne h.symm)

theorem foldl_processRow_preserve {ki : Nat} {vis : List Nat} {k : Line}
    (post : List (List Line))
    (hpost : ∀ r ∈ post, stripQuotes (r.getD ki []) ≠ k) :
    ∀ m : DictSS, dget (post.foldl (processRow ki vis false) m) k = dget m k := by
  induction post with
  | nil => intro m; rfl
  | cons r rs ih =>
    intro m
    rw [List.foldl_cons, ih (fun r' hr' => hpost r' (List.mem_cons_of_mem _ hr')),
      processRow_preserve (hpost r (List.mem_cons_self r rs))]

theorem colIndex_isSome {row : List Line} {v : Line} (h : v ∈ row) :
    ∃ i, colIndex row v = some i := by
  induction row with
  | nil => cases h
  | cons c cs ih =>
    by_cases hc : c = v
    · exact ⟨0, by simp [colIndex, hc]⟩
    · have hcs : v ∈ cs := by
        rcases List.mem_cons.mp h with h' | h'
        · exact absurd h'.symm hc
        · exact h'
      obtain ⟨i, hi⟩ := ih hcs
      exact ⟨i + 1, by simp [colIndex, hc, hi]⟩

theorem loadMapping_ok {cols names disc : List Line} {data : List (List Line)}
    {keyCol : Line} {valCols : List Line} {ki : Nat} {vis : List Nat} {nk : Bool}
    (hki : colIndex cols keyCol = some ki)
    (hvi : colIndices names valCols = some vis) :
    loadMapping (cols :: names :: disc :: data) keyCol valCols nk
      = .ok (data.foldl (processRow ki vis nk) []) := by
  simp only [loadMapping]
  rw [hki, hvi]

/-- `loadMapping` on the concrete two-column header used in the examples. -/
theorem loadMapping_twoCol (data : List (List Line)) :
    loadMapping (["key".data, "Name".data] :: ["key".data, "Name".data] :: [] :: data)
      "key".data ["Name".data] false
      = .ok (data.foldl (processRow 0 [1] false) []) :=
  loadMapping_ok rfl rfl

/-! ### Claims C5, C8, C9 -/

/-- Claim C5, counterexample: `str.strip('"')` removes every surrounding
double quote, not one layer.  On a data row whose raw key field is `""1""`
and raw value field is `""x""`, `load_mapping` in identifier-key mode
indexes `1 ↦ x`; the one-layer reading (key `"1"` bound to `"x"`) does not
hold: the key `"1"` is absent from the result. -/
theorem c5_counterexample :
    loadMapping
      [["key".data, "Name".data], ["key".data, "Name".data], [],
       ["\"\"1\"\"".data, "\"\"x\"\"".data]]
      "key".data ["Name".data] false
      = .ok [("1".data, "x".data)]
    ∧ dget [("1".data, "x".data)] "\"1\"".data = none
    ∧ dget [("1".data, "x".data)] "\"x\"".data = none := by
  exact ⟨rfl, rfl, rfl⟩

/-- Claim C5 (amended): for every data row processed by `load_mapping`, the
whole maximal leading and trailing runs of double-quote characters are
removed from the key field and the value field before the emptiness test
and indexing, so a field whose raw text is `""x""` yields the indexed text
`x` (all quote layers removed). -/
theorem c5_strip_all_quote_layers (a1 b1 a2 b2 : Nat) (idc vc : Line)
    (hid1 : idc.head? ≠ some '"') (hid2 : idc.getLast? ≠ some '"') (hidne : idc ≠ [])
    (hvc1 : vc.head? ≠ some '"') (hvc2 : vc.getLast? ≠ some '"') (hvcne : vc ≠ []) :
    loadMapping
      [["key".data, "Name".data], ["key".data, "Name".data], [],
       [List.replicate a1 '"' ++ idc ++ List.replicate b1 '"',
        List.replicate a2 '"' ++ vc ++ List.replicate b2 '"']]
      "key".data ["Name".data] false
      = .ok [(idc, vc)] := by
  have hid : stripQuotes (List.replicate a1 '"' ++ idc ++ List.replicate b1 '"') = idc :=
    stripQuotes_wrap a1 b1 idc hid1 hid2
  have hval : stripQuotes (List.replicate a2 '"' ++ vc ++ List.replicate b2 '"') = vc :=
    stripQuotes_wrap a2 b2 vc hvc1 hvc2
  rw [loadMapping_twoCol, List.foldl_cons, List.foldl_nil]
  have hrow : processRow 0 [1] false []
      [List.replicate a1 '"' ++ idc ++ List.replicate b1 '"',
       List.replicate a2 '"' ++ vc ++ List.replicate b2 '"']
      = dset [] idc vc :=
    processRow_set (by simp [rowLimit]) hid hidne hval hvcne
  rw [hrow]
  rfl

theorem c5_witness :
    loadMapping
      [["key".data, "Name".data], ["key".data, "Name".data], [],
       [List.replicate 2 '"' ++ "1".data ++ List.replicate 2 '"',
        List.replicate 2 '"' ++ "x".data ++ List.replicate 2 '"']]
      "key".data ["Name".data] false
      = .ok [("1".data, "x".data)] :=
  c5_strip_all_quote_layers 2 2 2 2 "1".data "x".data (by decide) (by decide)
    (by decide) (by decide) (by decide) (by decide)

/-- Claim C8: identifier-key mode is last-write-wins.  For a spreadsheet
whose data rows contain two rows `r1` (earlier) and `r2` (later) indexed
with the same identifier `k`, and where no row after `r2` is indexed with
`k`, the returned mapping binds `k` to the display-name value of `r2`. -/
theorem c8_last_write_wins (cols names disc : List Line)
    (pre mid post : List (List Line)) (r1 r2 : List Line)
    (keyCol : Line) (valCols : List Line) (ki vi : Nat) (vis : List Nat)
    (k v1 v2 : Line)
    (hki : colIndex cols keyCol = some ki)
    (hvi : colIndices names valCols = some (vi :: vis))
    (hr1len : rowLimit ki (vi :: vis) < r1.length)
    (hr1key : stripQuotes (r1.getD ki []) = k)
    (hr1val : stripQuotes (r1.getD ((vi :: vis).headD 0) []) = v1) (hv1 : v1 ≠ [])
    (hr2len : rowLimit ki (vi :: vis) < r2.length)
    (hr2key : stripQuotes (r2.getD ki []) = k) (hk : k ≠ [])
    (hr2val : stripQuotes (r2.getD ((vi :: vis).headD 0) []) = v2) (hv2 : v2 ≠ [])
    (hpost : ∀ r ∈ post, stripQuotes (r.getD ki []) ≠ k) :
    ∃ m, loadMapping (cols :: names :: disc :: (pre ++ r1 :: mid ++ r2 :: post))
        keyCol valCols false = .ok m
      ∧ dget m k = some v2 := by
  refine ⟨_, loadMapping_ok hki hvi, ?_⟩
  have hassoc : pre ++ r1 :: mid ++ r2 :: post = (pre ++ r1 :: mid) ++ (r2 :: post) := by
    simp
  rw [hassoc, List.foldl_append, List.foldl_cons,
    processRow_set hr2len hr2key hk hr2val hv2,
    foldl_processRow_preserve post hpost, dget_dset_self]

theorem c8_witness :
    ∃ m, loadMapping
        [["key".data, "Name".data], ["key".data, "Name".data], [],
         ["1".data, "a".data], ["1".data, "b".data]]
        "key".data ["Name".data] false = .ok m
      ∧ dget m "1".data = some "b".data :=
  c8_last_write_wins ["key".data, "Name".data] ["key".data, "Name".data] []
    [] [] [] ["1".data, "a".data] ["1".data, "b".data]
    "key".data ["Name".data] 0 1 [] "1".data "a".data "b".data
    rfl rfl (by decide) (by decide) (by decide) (by decide) (by decide)
    (by decide) (by decide) (by decide) (by decide)
    (fun r hr => absurd hr (List.not_mem_nil r))

/-- Claim C9: `load_mapping` fails with a lookup error when the key column
name is absent from header row 1 or a requested value column name is absent
from header row 2, and with an I/O error when the file cannot be opened; in
every error case no mapping is returned. -/
theorem c9_load_errors :
    (∀ keyCol valCols nk, loadMappingIO none keyCol valCols nk = .error .ioError)
    ∧ (∀ (cols names disc : List Line) (data : List (List Line)) keyCol valCols nk,
        keyCol ∉ cols →
        loadMapping (cols :: names :: disc :: data) keyCol valCols nk
          = .error .keyColMissing)
    ∧ (∀ (cols names disc : List Line) (data : List (List Line)) keyCol valCols nk v,
        keyCol ∈ cols → v ∈ valCols → v ∉ names →
        loadMapping (cols :: names :: disc :: data) keyCol valCols nk
          = .error .valColMissing)
    ∧ (∀ rows keyCol valCols nk e,
        loadMapping rows keyCol valCols nk = Except.error e →
        ∀ m, loadMapping rows keyCol valCols nk ≠ Except.ok m) := by
  refine ⟨fun _ _ _ => rfl, ?_, ?_, ?_⟩
  · intro cols names disc data keyCol valCols nk habs
    simp only [loadMapping]
    rw [colIndex_eq_none habs]
  · intro cols names disc data keyCol valCols nk v hkey hmem habs
    obtain ⟨i, hi⟩ := colIndex_isSome hkey
    simp only [loadMapping]
    rw [hi, colIndices_eq_none hmem habs]
  · intro rows keyCol valCols nk e h m hm
    rw [h] at hm
    exact Except.noConfusion hm

theorem c9_witness :
    loadMappingIO none "key".data ["Name".data] false = .error .ioError
    ∧ loadMapping [["a".data], ["Name".data], [], []] "key".data ["Name".data] false
        = .error .keyColMissing
    ∧ loadMapping [["key".data], ["b".data], [], []] "key".data ["Name".data] false
        = .error .valColMissing :=
  ⟨c9_load_errors.1 _ _ _,
   c9_load_errors.2.1 ["a".data] ["Name".data] [] [] "key".data ["Name".data] false
     (by decide),
   c9_load_errors.2.2.1 ["key".data] ["b".data] [] [] "key".data ["Name".data] false
     "Name".data (by decide) (by decide) (by decide)⟩

/-! ### Structural facts about the `translate` loop -/

theorem startsWithMsgid_shape {l : Line} (h : startsWithMsgid l = true) :
    l = msgidPfx ++ l.drop 6 := by
  have h' : l.take 6 = msgidPfx := by simpa [startsWithMsgid] using h
  conv_lhs => rw [← List.take_append_drop 6 l]
  rw [h']

theorem rstrip_decomp (l : Line) :
    ∃ w, l = rstrip l ++ w ∧ ∀ c ∈ w, isWs c = true := by
  refine ⟨(l.reverse.takeWhile isWs).reverse, ?_, ?_⟩
  · conv_lhs => rw [← List.reverse_reverse l,
      ← List.takeWhile_append_dropWhile isWs l.reverse]
    rw [List.reverse_append]
    rfl
  · intro c hc
    rw [List.mem_reverse] at hc
    exact List.mem_takeWhile_imp hc

/-- A `msgid `-prefixed line never strips to the `msgstr ""` sentinel. -/
theorem msgid_not_sentinel {l : Line} (h : startsWithMsgid l = true) :
    isSentinelB l = false := by
  have hshape := startsWithMsgid_shape h
  by_contra hcon
  have hsent : pyStrip l = sentinelChars := by
    have := Bool.of_not_eq_false hcon
    simpa [isSentinelB] using this
  have hl : lstrip l = l := by
    have hm : isWs 'm' = false := by decide
    conv_lhs => rw [hshape]
    simp only [lstrip, msgidPfx, List.cons_append, List.nil_append,
      List.dropWhile, hm]
    exact hshape.symm
  have hstrip : rstrip l = sentinelChars := by
    rw [pyStrip, hl] at hsent
    exact hsent
  obtain ⟨w, hw, _⟩ := rstrip_decomp l
  rw [hstrip] at hw
  rw [hshape] at hw
  simp [sentinelChars, msgidPfx, List.cons_eq_cons] at hw

theorem sentinel_not_msgid {l : Line} (h : isSentinelB l = true) :
    startsWithMsgid l = false := by
  by_contra hcon
  have := msgid_not_sentinel (Bool.of_not_eq_false hcon)
  rw [h] at this
  cases this

theorem truthy_iff {o : Option Line} :
    truthy o = true ↔ ∃ m, o = some m ∧ m ≠ [] := by
  cases o with
  | none => simp [truthy]
  | some m => simp [truthy, List.isEmpty_iff]

theorem examinedB_of_msgid {st : TState} {l : Line}
    (h : startsWithMsgid l = true) : examinedB st l = false := by
  rw [examinedB, msgid_not_sentinel h, Bool.and_false]

/-! Step characterization -/

theorem stepT_msgid {eng idm : DictSS} {st : TState} {l : Line}
    (h : startsWithMsgid l = true) :
    stepT eng idm st l = (l, { st with pending := matchMsgid l }) := by
  rw [stepT, if_pos h]

theorem stepT_other {eng idm : DictSS} {st : TState} {l : Line}
    (h1 : startsWithMsgid l = false) (h2 : examinedB st l = false) :
    stepT eng idm st l = (l, st) := by
  rw [stepT, if_neg (by simp [h1]), if_neg (by simp [h2])]

theorem stepT_exam_hit {eng idm : DictSS} {st : TState} {l : Line}
    (h1 : startsWithMsgid l = false) (h2 : examinedB st l = true)
    (h3 : (resolveTarget eng idm (st.pending.getD [])).isEmpty = false) :
    stepT eng idm st l
      = (msgstrLine (resolveTarget eng idm (st.pending.getD [])),
         { pending := none, total := st.total + 1, replaced := st.replaced + 1,
           missing := st.missing }) := by
  rw [stepT, if_neg (by simp [h1]), if_pos h2, if_neg (by simp [h3])]

theorem stepT_exam_miss {eng idm : DictSS} {st : TState} {l : Line}
    (h1 : startsWithMsgid l = false) (h2 : examinedB st l = true)
    (h3 : (resolveTarget eng idm (st.pending.getD [])).isEmpty = true) :
    stepT eng idm st l
      = (l, { pending := none, total := st.total + 1, replaced := st.replaced,
              missing := st.missing ++ [st.pending.getD []] }) := by
  rw [stepT, if_neg (by simp [h1]), if_pos h2, if_pos h3]

theorem stepT_total (eng idm : DictSS) (st : TState) (l : Line) :
    (stepT eng idm st l).2.total
      = st.total + (if examinedB st l then 1 else 0) := by
  by_cases h1 : startsWithMsgid l = true
  · rw [stepT_msgid h1, examinedB_of_msgid h1]
    simp
  · rw [Bool.not_eq_true] at h1
    by_cases h2 : examinedB st l = true
    · by_cases h3 : (resolveTarget eng idm (st.pending.getD [])).isEmpty = true
      · rw [stepT_exam_miss h1 h2 h3, h2]
        simp
      · rw [Bool.not_eq_true] at h3
        rw [stepT_exam_hit h1 h2 h3, h2]
        simp
    · rw [Bool.not_eq_true] at h2
      rw [stepT_other h1 h2, h2]
      simp

theorem stepT_replaced (eng idm : DictSS) (st : TState) (l : Line) :
    (stepT eng idm st l).2.replaced
      = st.replaced
        + (if examinedB st l && !(resolveTarget eng idm (st.pending.getD [])).isEmpty
           then 1 else 0) := by
  by_cases h1 : startsWithMsgid l = true
  · rw [stepT_msgid h1, examinedB_of_msgid h1]
    simp
  · rw [Bool.not_eq_true] at h1
    by_cases h2 : examinedB st l = true
    · by_cases h3 : (resolveTarget eng idm (st.pending.getD [])).isEmpty = true
      · rw [stepT_exam_miss h1 h2 h3, h2, h3]
        simp
      · rw [Bool.not_eq_true] at h3
        rw [stepT_exam_hit h1 h2 h3, h2, h3]
        simp
    · rw [Bool.not_eq_true] at h2
      rw [stepT_other h1 h2, h2]
      simp

theorem stepT_missing (eng idm : DictSS) (st : TState) (l : Line) :
    (stepT eng idm st l).2.missing
      = st.missing
        ++ (if examinedB st l && (resolveTarget eng idm (st.pending.getD [])).isEmpty
            then [st.pending.getD []] else []) := by
  by_cases h1 : startsWithMsgid l = true
  · rw [stepT_msgid h1, examinedB_of_msgid h1]
    simp
  · rw [Bool.not_eq_true] at h1
    by_cases h2 : examinedB st l = true
    · by_cases h3 : (resolveTarget eng idm (st.pending.getD [])).isEmpty = true
      · rw [stepT_exam_miss h1 h2 h3, h2, h3]
        simp
      · rw [Bool.not_eq_true] at h3
        rw [stepT_exam_hit h1 h2 h3, h2, h3]
        simp
    · rw [Bool.not_eq_true] at h2
      rw [stepT_other h1 h2, h2]
      simp

/-- Every written line is either the input line or the replacement of a
resolved empty-target sentinel. -/
theorem stepT_fst (eng idm : DictSS) (st : TState) (l : Line) :
    (stepT eng idm st l).1 = l
    ∨ (isSentinelB l = true
        ∧ ∃ m t, st.pending = some m ∧ m ≠ [] ∧ resolveTarget eng idm m = t ∧ t ≠ []
          ∧ (stepT eng idm st l).1 = msgstrLine t) := by
  by_cases h1 : startsWithMsgid l = true
  · left; rw [stepT_msgid h1]
  · rw [Bool.not_eq_true] at h1
    by_cases h2 : examinedB st l = true
    · by_cases h3 : (resolveTarget eng idm (st.pending.getD [])).isEmpty = true
      · left; rw [stepT_exam_miss h1 h2 h3]
      · rw [Bool.not_eq_true] at h3
        right
        have hsent : isSentinelB l = true := by
          have := h2
          rw [examinedB, Bool.and_eq_true] at this
          exact this.2
        have htr : truthy st.pending = true := by
          have := h2
          rw [examinedB, Bool.and_eq_true] at this
          exact this.1
        obtain ⟨m, hm, hmne⟩ := truthy_iff.mp htr
        refine ⟨hsent, m, resolveTarget eng idm m, hm, hmne, rfl, ?_, ?_⟩
        · have : st.pending.getD [] = m := by rw [hm]; rfl
          rw [← this]
          intro hc
          rw [hc] at h3
          simp at h3
        · have hg : st.pending.getD [] = m := by rw [hm]; rfl
          rw [stepT_exam_hit h1 h2 h3, hg]
    · rw [Bool.not_eq_true] at h2
      left; rw [stepT_other h1 h2]

/-! The loop, its state at each position, and its output lines -/

theorem runT_nil (eng idm : DictSS) (st : TState) : runT eng idm st [] = ([], st) := rfl

theorem runT_cons (eng idm : DictSS) (st : TState) (l : Line) (ls : List Line) :
    runT eng idm st (l :: ls)
      = ((stepT eng idm st l).1 :: (runT eng idm (stepT eng idm st l).2 ls).1,
         (runT eng idm (stepT eng idm st l).2 ls).2) := rfl

theorem runT_length (eng idm : DictSS) (st : TState) (ls : List Line) :
    (runT eng idm st ls).1.length = ls.length := by
  induction ls generalizing st with
  | nil => rfl
  | cons l ls ih => simp [runT_cons, ih]

/-- The loop state just before line `i` is processed. -/
def stateAt (eng idm : DictSS) (st : TState) (ls : List Line) (i : Nat) : TState :=
  (runT eng idm st (ls.take i)).2

theorem stateAt_zero (eng idm : DictSS) (st : TState) (ls : List Line) :
    stateAt eng idm st ls 0 = st := rfl

theorem stateAt_succ_cons (eng idm : DictSS) (st : TState) (l : Line) (ls : List Line)
    (i : Nat) :
    stateAt eng idm st (l :: ls) (i + 1)
      = stateAt eng idm (stepT eng idm st l).2 ls i := by
  rw [stateAt, stateAt, List.take_succ_cons, runT_cons]

theorem runT_getElem (eng idm : DictSS) (st : TState) (ls : List Line) (i : Nat) :
    ((runT eng idm st ls).1)[i]?
      = (ls[i]?).map (fun l => (stepT eng idm (stateAt eng idm st ls i) l).1) := by
  induction ls generalizing st i with
  | nil => simp [runT_nil]
  | cons l ls ih =>
    cases i with
    | zero => rw [runT_cons]; simp [stateAt_zero]
    | succ i =>
      rw [runT_cons, stateAt_succ_cons]
      simp only [List.getElem?_cons_succ]
      exact ih (stepT eng idm st l).2 i

/-! Per-position observations of the run (computed from prefix runs). -/

/-- Position `i` holds the `msgstr ""` sentinel. -/
def sentinelAt (ls : List Line) (i : Nat) : Bool :=
  match ls[i]? with
  | some l => isSentinelB l
  | none => false

/-- Position `i` is examined as a candidate (truthy pending msgid and
sentinel line). -/
def examinedFrom (eng idm : DictSS) (st : TState) (ls : List Line) (i : Nat) : Bool :=
  match ls[i]? with
  | some l => examinedB (stateAt eng idm st ls i) l
  | none => false

/-- Position `i` is examined and resolves to a non-empty target. -/
def resolvedFrom (eng idm : DictSS) (st : TState) (ls : List Line) (i : Nat) : Bool :=
  match ls[i]? with
  | some l =>
    examinedB (stateAt eng idm st ls i) l
      && !(resolveTarget eng idm ((stateAt eng idm st ls i).pending.getD [])).isEmpty
  | none => false

/-- The unresolved source message recorded at position `i`, if any. -/
def missedFrom (eng idm : DictSS) (st : TState) (ls : List Line) (i : Nat) : Option Line :=
  match ls[i]? with
  | some l =>
    if examinedB (stateAt eng idm st ls i) l
        && (resolveTarget eng idm ((stateAt eng idm st ls i).pending.getD [])).isEmpty
    then some ((stateAt eng idm st ls i).pending.getD [])
    else none
  | none => none

theorem examinedFrom_succ (eng idm : DictSS) (st : TState) (l : Line) (ls : List Line)
    (i : Nat) :
    examinedFrom eng idm st (l :: ls) (i + 1)
      = examinedFrom eng idm (stepT eng idm st l).2 ls i := by
  rw [examinedFrom, examinedFrom, List.getElem?_cons_succ, stateAt_succ_cons]

theorem resolvedFrom_succ (eng idm : DictSS) (st : TState) (l : Line) (ls : List Line)
    (i : Nat) :
    resolvedFrom eng idm st (l :: ls) (i + 1)
      = resolvedFrom eng idm (stepT eng idm st l).2 ls i := by
  rw [resolvedFrom, resolvedFrom, List.getElem?_cons_succ, stateAt_succ_cons]

theorem missedFrom_succ (eng idm : DictSS) (st : TState) (l : Line) (ls : List Line)
    (i : Nat) :
    missedFrom eng idm st (l :: ls) (i + 1)
      = missedFrom eng idm (stepT eng idm st l).2 ls i := by
  rw [missedFrom, missedFrom, List.getElem?_cons_succ, stateAt_succ_cons]

theorem runT_total (eng idm : DictSS) (st : TState) (ls : List Line) :
    (runT eng idm st ls).2.total
      = st.total + (List.range ls.length).countP (examinedFrom eng idm st ls) := by
  induction ls generalizing st with
  | nil => simp [runT_nil]
  | cons l ls ih =>
    rw [runT_cons]
    simp only []
    rw [ih, stepT_total, List.length_cons, List.range_succ_eq_map,
      List.countP_cons, List.countP_map]
    have hshift : examinedFrom eng idm st (l :: ls) ∘ Nat.succ
        = examinedFrom eng idm (stepT eng idm st l).2 ls :=
      funext fun i => examinedFrom_succ eng idm st l ls i
    rw [hshift]
    have hzero : examinedFrom eng idm st (l :: ls) 0 = examinedB st l := by
      simp [examinedFrom, stateAt_zero]
    rw [hzero]
    omega

theorem runT_replaced (eng idm : DictSS) (st : TState) (ls : List Line) :
    (runT eng idm st ls).2.replaced
      = st.replaced + (List.range ls.length).countP (resolvedFrom eng idm st ls) := by
  induction ls generalizing st with
  | nil => simp [runT_nil]
  | cons l ls ih =>
    rw [runT_cons]
    simp only []
    rw [ih, stepT_replaced, List.length_cons, List.range_succ_eq_map,
      List.countP_cons, List.countP_map]
    have hshift : resolvedFrom eng idm st (l :: ls) ∘ Nat.succ
        = resolvedFrom eng idm (stepT eng idm st l).2 ls :=
      funext fun i => resolvedFrom_succ eng idm st l ls i
    rw [hshift]
    have hzero : resolvedFrom eng idm st (l :: ls) 0
        = (examinedB st l && !(resolveTarget eng idm (st.pending.getD [])).isEmpty) := by
      simp [resolvedFrom, stateAt_zero]
    rw [hzero]
    omega

theorem runT_missing (eng idm : DictSS) (st : TState) (ls : List Line) :
    (runT eng idm st ls).2.missing
      = st.missing ++ (List.range ls.length).filterMap (missedFrom eng idm st ls) := by
  induction ls generalizing st with
  | nil => simp [runT_nil]
  | cons l ls ih =>
    rw [runT_cons]
    simp only []
    rw [ih, stepT_missing, List.length_cons, List.range_succ_eq_map,
      List.filterMap_cons, List.filterMap_map]
    have hshift : missedFrom eng idm st (l :: ls) ∘ Nat.succ
        = missedFrom eng idm (stepT eng idm st l).2 ls :=
      funext fun i => missedFrom_succ eng idm st l ls i
    rw [hshift]
    have hzero : missedFrom eng idm st (l :: ls) 0
        = (if examinedB st l && (resolveTarget eng idm (st.pending.getD [])).isEmpty
           then some (st.pending.getD []) else none) := by
      simp [missedFrom, stateAt_zero]
    rw [hzero]
    by_cases hc : (examinedB st l
        && (resolveTarget eng idm (st.pending.getD [])).isEmpty) = true
    · rw [if_pos hc, if_pos hc]
      simp
    · rw [if_neg hc, if_neg hc]
      simp

/-! ### Claims C1, C2, C3, C4, C10 -/

theorem countP_range_sentinel (ls : List Line) :
    (List.range ls.length).countP (sentinelAt ls) = ls.countP isSentinelB := by
  induction ls with
  | nil => rfl
  | cons l ls ih =>
    rw [List.length_cons, List.range_succ_eq_map, List.countP_cons, List.countP_map]
    have hshift : sentinelAt (l :: ls) ∘ Nat.succ = sentinelAt ls :=
      funext fun i => by simp [sentinelAt]
    have hzero : sentinelAt (l :: ls) 0 = isSentinelB l := by simp [sentinelAt]
    rw [hshift, ih, hzero, List.countP_cons]

theorem resolvedFrom_imp_sentinelAt {eng idm : DictSS} {st : TState} {ls : List Line}
    {i : Nat} (h : resolvedFrom eng idm st ls i = true) : sentinelAt ls i = true := by
  rw [resolvedFrom] at h
  rw [sentinelAt]
  cases hl : ls[i]? with
  | none => rw [hl] at h; cases h
  | some l =>
    rw [hl] at h
    rw [Bool.and_eq_true, examinedB, Bool.and_eq_true] at h
    exact h.1.2

/-- Claim C1: on a fully-resolvable translation file (every `msgstr ""`
sentinel line is an examined candidate whose pending msgid resolves through
both indexes to a non-empty target), every sentinel line of the output is
the replacement `msgstr "<target>"` line, and the replaced count equals the
number of sentinel lines of the input. -/
theorem c1_fully_resolvable (eng idm : DictSS) (ls : List Line)
    (hres : ∀ i, i < ls.length → sentinelAt ls i = true →
      resolvedFrom eng idm initState ls i = true) :
    (translate eng idm ls).2.replaced = ls.countP isSentinelB
    ∧ ∀ i l, ls[i]? = some l → isSentinelB l = true →
        (translate eng idm ls).1[i]?
          = some (msgstrLine (resolveTarget eng idm
              ((stateAt eng idm initState ls i).pending.getD []))) := by
  constructor
  · rw [translate, runT_replaced]
    have hcong : (List.range ls.length).countP (resolvedFrom eng idm initState ls)
        = (List.range ls.length).countP (sentinelAt ls) := by
      apply List.countP_congr
      intro i hi
      rw [List.mem_range] at hi
      exact ⟨fun h => resolvedFrom_imp_sentinelAt h, fun h => hres i hi h⟩
    rw [hcong, countP_range_sentinel]
    simp [initState]
  · intro i l hl hsent
    have hi : i < ls.length := by
      by_contra hc
      rw [List.getElem?_eq_none (Nat.le_of_not_lt hc)] at hl
      cases hl
    have hsentAt : sentinelAt ls i = true := by rw [sentinelAt, hl]; exact hsent
    have hr := hres i hi hsentAt
    rw [resolvedFrom, hl, Bool.and_eq_true] at hr
    obtain ⟨hex, hne⟩ := hr
    have hne' : (resolveTarget eng idm
        ((stateAt eng idm initState ls i).pending.getD [])).isEmpty = false := by
      rwa [Bool.not_eq_true'] at hne
    have hout := runT_getElem eng idm initState ls i
    rw [hl, Option.map_some'] at hout
    rw [translate, hout, stepT_exam_hit (sentinel_not_msgid hsent) hex hne']

theorem c1_witness :
    (translate [("fire shard".data, "1001".data)]
      [("1001".data, "Feuerscherbe".data)]
      ["msgid \"Fire Shard\"\n".data, "msgstr \"\"\n".data]).2.replaced
      = (["msgid \"Fire Shard\"\n".data, "msgstr \"\"\n".data] : List Line).countP
          isSentinelB :=
  (c1_fully_resolvable [("fire shard".data, "1001".data)]
    [("1001".data, "Feuerscherbe".data)]
    ["msgid \"Fire Shard\"\n".data, "msgstr \"\"\n".data] (by decide)).1

/-- Claim C2: the statistics produced by `translate` are exactly the number
of candidate entries examined, the number of replacements, and the ordered
list of unresolved source messages. -/
theorem c2_statistics (eng idm : DictSS) (ls : List Line) :
    (translate eng idm ls).2.total
      = (List.range ls.length).countP (examinedFrom eng idm initState ls)
    ∧ (translate eng idm ls).2.replaced
      = (List.range ls.length).countP (resolvedFrom eng idm initState ls)
    ∧ (translate eng idm ls).2.missing
      = (List.range ls.length).filterMap (missedFrom eng idm initState ls) := by
  refine ⟨?_, ?_, ?_⟩
  · rw [translate, runT_total]
    simp [initState]
  · rw [translate, runT_replaced]
    simp [initState]
  · rw [translate, runT_missing]
    simp [initState]

/-- Claim C3, counterexample: with a pending msgid and a next line that is
neither a msgid line nor the sentinel, the code copies the line through but
does NOT clear the pending state (the claim says it is cleared). -/
theorem c3_counterexample :
    startsWithMsgid "#c\n".data = false
    ∧ isSentinelB "#c\n".data = false
    ∧ stepT [] [] ⟨some "a".data, 0, 0, []⟩ "#c\n".data
        = ("#c\n".data, ⟨some "a".data, 0, 0, []⟩)
    ∧ (stepT [] [] ⟨some "a".data, 0, 0, []⟩ "#c\n".data).2.pending ≠ none :=
  ⟨by decide, by decide, by decide, by decide⟩

/-- Claim C3 (amended): in Pending state, a line that is neither a msgid
line nor the empty-target sentinel is copied through unchanged and the
whole state — including the pending msgid — is left unchanged; the pending
msgid is NOT cleared, so the sentinel check applies to every later line
until the next msgid line rewrites the pending msgid. -/
theorem c3_pending_retained (eng idm : DictSS) (st : TState) (l m : Line)
    (hp : st.pending = some m)
    (h1 : startsWithMsgid l = false) (h2 : isSentinelB l = false) :
    stepT eng idm st l = (l, st) :=
  stepT_other h1 (by rw [examinedB, h2, Bool.and_false])

theorem c3_witness :
    stepT [] [] ⟨some "a".data, 1, 2, ["b".data]⟩ "xx\n".data
      = ("xx\n".data, ⟨some "a".data, 1, 2, ["b".data]⟩) :=
  c3_pending_retained [] [] ⟨some "a".data, 1, 2, ["b".data]⟩ "xx\n".data
    "a".data rfl (by decide) (by decide)

/-- Claim C4: the output has exactly one line per input line, in order, and
every line that is not the replaced sentinel line of a resolved candidate is
written byte-for-byte unchanged. -/
theorem c4_pass_through (eng idm : DictSS) (ls : List Line) :
    (translate eng idm ls).1.length = ls.length
    ∧ ∀ i l, ls[i]? = some l →
        (translate eng idm ls).1[i]? = some l
        ∨ (isSentinelB l = true
            ∧ ∃ m t, (stateAt eng idm initState ls i).pending = some m ∧ m ≠ []
              ∧ resolveTarget eng idm m = t ∧ t ≠ []
              ∧ (translate eng idm ls).1[i]? = some (msgstrLine t)) := by
  constructor
  · exact runT_length eng idm initState ls
  · intro i l hl
    have hout := runT_getElem eng idm initState ls i
    rw [hl, Option.map_some'] at hout
    rcases stepT_fst eng idm (stateAt eng idm initState ls i) l with
      h | ⟨hs, m, t, hpend, hm, hr, ht, ho⟩
    · left
      rw [translate, hout, h]
    · right
      exact ⟨hs, m, t, hpend, hm, hr, ht, by rw [translate, hout, ho]⟩

theorem c4_witness :
    (translate [] [] ["# x\n".data]).1.length = 1
    ∧ ((translate [] [] ["# x\n".data]).1[0]? = some "# x\n".data
        ∨ (isSentinelB "# x\n".data = true
            ∧ ∃ m t, (stateAt [] [] initState ["# x\n".data] 0).pending = some m
              ∧ m ≠ [] ∧ resolveTarget [] [] m = t ∧ t ≠ []
              ∧ (translate [] [] ["# x\n".data]).1[0]? = some (msgstrLine t))) :=
  ⟨(c4_pass_through [] [] ["# x\n".data]).1,
   (c4_pass_through [] [] ["# x\n".data]).2 0 "# x\n".data (by decide)⟩

/-- Claim C10: a `msgid ""` line stores the empty captured text, which is
falsy, so a following `msgstr ""` sentinel is copied through unchanged, is
not counted as a candidate, and contributes nothing to the missing list. -/
theorem c10_empty_msgid (eng idm : DictSS) (l1 l2 : Line)
    (h1 : startsWithMsgid l1 = true) (hm : matchMsgid l1 = some [])
    (h2 : isSentinelB l2 = true) :
    translate eng idm [l1, l2] = ([l1, l2], ⟨some [], 0, 0, []⟩) := by
  have e1 : stepT eng idm initState l1 = (l1, ⟨some [], 0, 0, []⟩) := by
    rw [stepT_msgid h1, hm]
    rfl
  have e2 : stepT eng idm ⟨some [], 0, 0, []⟩ l2 = (l2, ⟨some [], 0, 0, []⟩) := by
    apply stepT_other (sentinel_not_msgid h2)
    rfl
  simp [translate, runT_cons, runT_nil, e1, e2]

theorem c10_witness :
    translate [] [] ["msgid \"\"\n".data, "msgstr \"\"\n".data]
      = (["msgid \"\"\n".data, "msgstr \"\"\n".data], ⟨some [], 0, 0, []⟩) :=
  c10_empty_msgid [] [] "msgid \"\"\n".data "msgstr \"\"\n".data
    (by decide) (by decide) (by decide)

/-! ### Claim C6: idempotence of `normalize` -/

theorem afterTagAux_eq_none_iff {l : List Char} :
    afterTagAux l = none ↔ ∀ c ∈ l, ¬(c = '>') := by
  induction l with
  | nil => simp [afterTagAux]
  | cons d ds ih =>
    by_cases hd : d = '>'
    · simp [afterTagAux, hd]
    · simp [afterTagAux, hd, ih]

theorem afterTag_eq_none_of_no_gt {cs : List Char} (h : ∀ c ∈ cs, ¬(c = '>')) :
    afterTag cs = none := by
  cases cs with
  | nil => rfl
  | cons d ds =>
    rw [afterTag, if_neg (h d (List.mem_cons_self d ds))]
    exact afterTagAux_eq_none_iff.mpr (fun c hc => h c (List.mem_cons_of_mem d hc))

theorem afterTagAux_subset {l r : List Char} (h : afterTagAux l = some r) :
    ∀ c ∈ r, c ∈ l := by
  induction l generalizing r with
  | nil => cases h
  | cons d ds ih =>
    rw [afterTagAux] at h
    by_cases hd : d = '>'
    · rw [if_pos hd] at h
      cases h
      exact fun c hc => List.mem_cons_of_mem d hc
    · rw [if_neg hd] at h
      exact fun c hc => List.mem_cons_of_mem d (ih h c hc)

theorem afterTag_subset {l r : List Char} (h : afterTag l = some r) :
    ∀ c ∈ r, c ∈ l := by
  cases l with
  | nil => cases h
  | cons d ds =>
    rw [afterTag] at h
    by_cases hd : d = '>'
    · rw [if_pos hd] at h; cases h
    · rw [if_neg hd] at h
      exact fun c hc => List.mem_cons_of_mem d (afterTagAux_subset h c hc)

theorem afterTagAux_length {l r : List Char} (h : afterTagAux l = some r) :
    r.length < l.length := by
  induction l generalizing r with
  | nil => cases h
  | cons d ds ih =>
    rw [afterTagAux] at h
    by_cases hd : d = '>'
    · rw [if_pos hd] at h
      cases h
      simp
    · rw [if_neg hd] at h
      have := ih h
      simp only [List.length_cons]
      omega

theorem afterTag_length {l r : List Char} (h : afterTag l = some r) :
    r.length < l.length := by
  cases l with
  | nil => cases h
  | cons d ds =>
    rw [afterTag] at h
    by_cases hd : d = '>'
    · rw [if_pos hd] at h; cases h
    · rw [if_neg hd] at h
      have := afterTagAux_length h
      simp only [List.length_cons]
      omega

theorem stripTagsF_nil (fuel : Nat) : stripTagsF fuel [] = [] := by
  cases fuel <;> rfl

theorem mem_stripTagsF {fuel : Nat} {l : List Char} :
    ∀ c ∈ stripTagsF fuel l, c ∈ l := by
  induction fuel generalizing l with
  | zero =>
    intro c hc
    rw [show stripTagsF 0 l = [] from by cases l <;> rfl] at hc
    cases hc
  | succ fuel ih =>
    intro c hc
    cases l with
    | nil => rw [stripTagsF_nil] at hc; cases hc
    | cons x xs =>
      rw [stripTagsF] at hc
      by_cases hx : x = '<'
      · rw [if_pos hx] at hc
        cases hAT : afterTag xs with
        | some rest =>
          rw [hAT] at hc
          exact List.mem_cons_of_mem x (afterTag_subset hAT c (ih c hc))
        | none =>
          rw [hAT] at hc
          rcases List.mem_cons.mp hc with h | h
          · exact h ▸ List.mem_cons_self x xs
          · exact List.mem_cons_of_mem x (ih c h)
      · rw [if_neg hx] at hc
        rcases List.mem_cons.mp hc with h | h
        · exact h ▸ List.mem_cons_self x xs
        · exact List.mem_cons_of_mem x (ih c h)

/-- `l` contains no tag match anywhere: every `<` is followed immediately
by `>` or by no `>` at all. -/
def noTagFrom : List Char → Bool
  | [] => true
  | c :: cs => (if c = '<' then (afterTag cs).isNone else true) && noTagFrom cs

theorem stripTagsF_id {fuel : Nat} {l : List Char} (hf : l.length ≤ fuel)
    (h : noTagFrom l = true) : stripTagsF fuel l = l := by
  induction fuel generalizing l with
  | zero =>
    cases l with
    | nil => rfl
    | cons c cs => simp at hf
  | succ fuel ih =>
    cases l with
    | nil => rfl
    | cons c cs =>
      rw [noTagFrom, Bool.and_eq_true] at h
      obtain ⟨h1, h2⟩ := h
      have hlen : cs.length ≤ fuel := by
        simp only [List.length_cons] at hf
        omega
      rw [stripTagsF]
      by_cases hc : c = '<'
      · rw [if_pos hc] at h1 ⊢
        rw [Option.isNone_iff_eq_none] at h1
        rw [h1, ih hlen h2]
      · rw [if_neg hc, ih hlen h2]

theorem noTagFrom_stripTagsF {fuel : Nat} {l : List Char} (hf : l.length ≤ fuel) :
    noTagFrom (stripTagsF fuel l) = true := by
  induction fuel generalizing l with
  | zero =>
    rw [show stripTagsF 0 l = [] from by cases l <;> rfl]
    rfl
  | succ fuel ih =>
    cases l with
    | nil => rw [stripTagsF_nil]; rfl
    | cons c cs =>
      have hlen : cs.length ≤ fuel := by
        simp only [List.length_cons] at hf
        omega
      rw [stripTagsF]
      by_cases hc : c = '<'
      · rw [if_pos hc]
        cases hAT : afterTag cs with
        | some rest =>
          have hrl : rest.length ≤ fuel := by
            have := afterTag_length hAT
            omega
          exact ih hrl
        | none =>
          rw [noTagFrom, Bool.and_eq_true]
          refine ⟨?_, ih hlen⟩
          rw [if_pos hc, Option.isNone_iff_eq_none]
          cases cs with
          | nil => rw [stripTagsF_nil]; rfl
          | cons d ds =>
            rw [afterTag] at hAT
            by_cases hd : d = '>'
            · rw [if_pos hd] at hAT
              cases fuel with
              | zero => simp at hlen
              | succ fuel' =>
                rw [stripTagsF, if_neg (by rw [hd]; decide)]
                rw [afterTag, if_pos hd]
            · rw [if_neg hd] at hAT
              have hno : ∀ c' ∈ (d :: ds), ¬(c' = '>') := by
                intro c' hc'
                rcases List.mem_cons.mp hc' with h | h
                · exact h ▸ hd
                · exact afterTagAux_eq_none_iff.mp hAT c' h
              exact afterTag_eq_none_of_no_gt
                (fun c' hc' => hno c' (mem_stripTagsF c' hc'))
      · rw [if_neg hc, noTagFrom, Bool.and_eq_true]
        exact ⟨by rw [if_neg hc], ih hlen⟩

theorem noTagFrom_stripTags (l : List Char) : noTagFrom (stripTags l) = true :=
  noTagFrom_stripTagsF (Nat.le_refl _)

theorem stripTags_id {l : List Char} (h : noTagFrom l = true) : stripTags l = l :=
  stripTagsF_id (Nat.le_refl _) h

theorem noTagFrom_append_right {a b : List Char}
    (h : noTagFrom (a ++ b) = true) : noTagFrom b = true := by
  induction a with
  | nil => exact h
  | cons x a' ih =>
    rw [List.cons_append, noTagFrom, Bool.and_eq_true] at h
    exact ih h.2

theorem noTagFrom_append_left {a b : List Char}
    (h : noTagFrom (a ++ b) = true) (hb : ∀ c ∈ b, ¬(c = '>')) :
    noTagFrom a = true := by
  induction a with
  | nil => rfl
  | cons x a' ih =>
    rw [List.cons_append, noTagFrom, Bool.and_eq_true] at h
    obtain ⟨h1, h2⟩ := h
    rw [noTagFrom, Bool.and_eq_true]
    refine ⟨?_, ih h2⟩
    by_cases hx : x = '<'
    · rw [if_pos hx] at h1 ⊢
      rw [Option.isNone_iff_eq_none] at h1 ⊢
      cases a' with
      | nil => rfl
      | cons d ds =>
        rw [List.cons_append, afterTag] at h1
        rw [afterTag]
        by_cases hd : d = '>'
        · rw [if_pos hd]
        · rw [if_neg hd] at h1 ⊢
          rw [afterTagAux_eq_none_iff] at h1 ⊢
          exact fun c hc => h1 c (List.mem_append_left b hc)
    · rw [if_neg hx]

theorem afterTag_none_filter {p : Char → Bool} (hp : p '>' = true)
    {cs : List Char} (h : afterTag cs = none) :
    afterTag (cs.filter p) = none := by
  cases cs with
  | nil => rfl
  | cons d ds =>
    rw [afterTag] at h
    by_cases hd : d = '>'
    · rw [List.filter_cons, hd, hp]
      simp only [if_true]
      rw [afterTag, if_pos rfl]
    · rw [if_neg hd, afterTagAux_eq_none_iff] at h
      have hno : ∀ c ∈ (d :: ds).filter p, ¬(c = '>') := by
        intro c hc
        have hmem := (List.mem_filter.mp hc).1
        rcases List.mem_cons.mp hmem with hh | hh
        · exact hh ▸ hd
        · exact h c hh
      exact afterTag_eq_none_of_no_gt hno

theorem noTagFrom_filter {p : Char → Bool}
    (hlt : ∀ c, p c = false → ¬(c = '<')) (hgt : p '>' = true)
    {l : List Char} (h : noTagFrom l = true) :
    noTagFrom (l.filter p) = true := by
  induction l with
  | nil => rfl
  | cons c cs ih =>
    rw [noTagFrom, Bool.and_eq_true] at h
    obtain ⟨h1, h2⟩ := h
    rw [List.filter_cons]
    by_cases hpc : p c = true
    · rw [hpc]
      simp only [if_true]
      rw [noTagFrom, Bool.and_eq_true]
      refine ⟨?_, ih h2⟩
      by_cases hc : c = '<'
      · rw [if_pos hc] at h1 ⊢
        rw [Option.isNone_iff_eq_none] at h1 ⊢
        exact afterTag_none_filter hgt h1
      · rw [if_neg hc]
    · rw [Bool.not_eq_true] at hpc
      rw [hpc]
      simp only [Bool.false_eq_true, if_false]
      exact ih h2

theorem afterTag_none_map {f : Char → Char}
    (hgt : ∀ c, f c = '>' ↔ c = '>')
    {cs : List Char} (h : afterTag cs = none) :
    afterTag (cs.map f) = none := by
  cases cs with
  | nil => rfl
  | cons d ds =>
    rw [afterTag] at h
    by_cases hd : d = '>'
    · rw [List.map_cons, afterTag, if_pos ((hgt d).mpr hd)]
    · rw [if_neg hd, afterTagAux_eq_none_iff] at h
      have hno : ∀ c ∈ (d :: ds).map f, ¬(c = '>') := by
        intro c hc
        obtain ⟨a, ha, hfa⟩ := List.mem_map.mp hc
        intro hcgt
        have hagt : a = '>' := (hgt a).mp (hfa.trans hcgt)
        rcases List.mem_cons.mp ha with hh | hh
        · exact hd (hh ▸ hagt)
        · exact h a hh hagt
      exact afterTag_eq_none_of_no_gt hno

theorem noTagFrom_map {f : Char → Char}
    (hlt : ∀ c, f c = '<' ↔ c = '<') (hgt : ∀ c, f c = '>' ↔ c = '>')
    {l : List Char} (h : noTagFrom l = true) :
    noTagFrom (l.map f) = true := by
  induction l with
  | nil => rfl
  | cons c cs ih =>
    rw [noTagFrom, Bool.and_eq_true] at h
    obtain ⟨h1, h2⟩ := h
    rw [List.map_cons, noTagFrom, Bool.and_eq_true]
    refine ⟨?_, ih h2⟩
    by_cases hfc : f c = '<'
    · have hc : c = '<' := (hlt c).mp hfc
      rw [if_pos hfc]
      rw [if_pos hc, Option.isNone_iff_eq_none] at h1
      rw [Option.isNone_iff_eq_none]
      exact afterTag_none_map hgt h1
    · rw [if_neg hfc]

theorem ws_not_gt {c : Char} (h : isWs c = true) : ¬(c = '>') := by
  intro hc
  subst hc
  simp [isWs] at h

theorem noTagFrom_lstrip {l : List Char} (h : noTagFrom l = true) :
    noTagFrom (lstrip l) = true := by
  have hsplit : List.takeWhile isWs l ++ List.dropWhile isWs l = l :=
    List.takeWhile_append_dropWhile isWs l
  rw [lstrip]
  exact noTagFrom_append_right (hsplit.symm ▸ h)

theorem noTagFrom_rstrip {l : List Char} (h : noTagFrom l = true) :
    noTagFrom (rstrip l) = true := by
  obtain ⟨w, hw, hws⟩ := rstrip_decomp l
  exact noTagFrom_append_left (hw ▸ h) (fun c hc => ws_not_gt (hws c hc))

theorem noTagFrom_pyStrip {l : List Char} (h : noTagFrom l = true) :
    noTagFrom (pyStrip l) = true :=
  noTagFrom_rstrip (noTagFrom_lstrip h)

/-! Facts about `pyStrip` and `lowerList` needed for the second pass. -/

theorem dropWhile_head_false {p : Char → Bool} {l c : _} {r : List Char}
    (h : List.dropWhile p l = c :: r) : p c = false := by
  induction l with
  | nil => cases h
  | cons a l' ih =>
    rw [List.dropWhile] at h
    by_cases hpa : p a = true
    · rw [hpa] at h
      simp only [if_true] at h
      exact ih h
    · rw [Bool.not_eq_true] at hpa
      rw [hpa] at h
      simp only [Bool.false_eq_true, if_false] at h
      cases h
      exact hpa

theorem dropWhile_idem (p : Char → Bool) (l : List Char) :
    List.dropWhile p (List.dropWhile p l) = List.dropWhile p l := by
  cases h : List.dropWhile p l with
  | nil => rfl
  | cons c r =>
    rw [List.dropWhile, dropWhile_head_false h]

theorem rstrip_idem (l : Line) : rstrip (rstrip l) = rstrip l := by
  rw [rstrip, rstrip, List.reverse_reverse, dropWhile_idem]

theorem lstrip_idem (l : Line) : lstrip (lstrip l) = lstrip l := by
  rw [lstrip, lstrip, dropWhile_idem]

theorem lstrip_rstrip_lstrip (l : Line) :
    lstrip (rstrip (lstrip l)) = rstrip (lstrip l) := by
  cases hr : rstrip (lstrip l) with
  | nil => rfl
  | cons c r =>
    have hpre : ∃ w, lstrip l = rstrip (lstrip l) ++ w := by
      obtain ⟨w, hw, _⟩ := rstrip_decomp (lstrip l)
      exact ⟨w, hw⟩
    obtain ⟨w, hw⟩ := hpre
    rw [hr] at hw
    have hc : isWs c = false := by
      have hd : List.dropWhile isWs l = c :: (r ++ w) := by
        show lstrip l = c :: (r ++ w)
        rw [hw, List.cons_append]
      exact dropWhile_head_false hd
    rw [lstrip, List.dropWhile, hc]

theorem pyStrip_idem (l : Line) : pyStrip (pyStrip l) = pyStrip l := by
  rw [pyStrip, pyStrip, lstrip_rstrip_lstrip, rstrip_idem]

theorem lstrip_lowerList (l : Line) :
    lstrip (lowerList l) = lowerList (lstrip l) := by
  rw [lstrip, lstrip, lowerList, lowerList, List.dropWhile_map]
  have : isWs ∘ lowerChar = isWs := funext fun c => isWs_lowerChar c
  rw [this]

theorem rstrip_lowerList (l : Line) :
    rstrip (lowerList l) = lowerList (rstrip l) := by
  rw [rstrip, rstrip, lowerList, lowerList, ← List.map_reverse, List.dropWhile_map]
  have : isWs ∘ lowerChar = isWs := funext fun c => isWs_lowerChar c
  rw [this, List.map_reverse]

theorem pyStrip_lowerList (l : Line) :
    pyStrip (lowerList l) = lowerList (pyStrip l) := by
  rw [pyStrip, pyStrip, lstrip_lowerList, rstrip_lowerList]

theorem lowerList_idem (l : Line) : lowerList (lowerList l) = lowerList l := by
  rw [lowerList, lowerList, List.map_map]
  have : lowerChar ∘ lowerChar = lowerChar := funext fun c => lowerChar_idem c
  rw [this]

/-! Punctuation-freeness of `normalize` output. -/

theorem mem_lstrip {l : Line} {c : Char} (h : c ∈ lstrip l) : c ∈ l := by
  have hsplit : List.takeWhile isWs l ++ List.dropWhile isWs l = l :=
    List.takeWhile_append_dropWhile isWs l
  rw [← hsplit]
  exact List.mem_append_right _ h

theorem mem_rstrip {l : Line} {c : Char} (h : c ∈ rstrip l) : c ∈ l := by
  obtain ⟨w, hw, _⟩ := rstrip_decomp l
  rw [hw]
  exact List.mem_append_left w h

theorem normalize_punct_free (l : Line) (c : Char) (h : c ∈ normalize l) :
    isPunctB c = false := by
  rw [normalize, lowerList] at h
  obtain ⟨a, ha, hfa⟩ := List.mem_map.mp h
  have ha' : a ∈ stripPunct (stripTags l) := mem_lstrip (mem_rstrip ha)
  rw [stripPunct] at ha'
  have hap := List.of_mem_filter ha'
  have hap' : isPunctB a = false := by simpa using hap
  rw [← hfa, isPunctB_lowerChar, hap']

/-- Claim C6: `normalize` is idempotent. -/
theorem c6_normalize_idempotent (l : Line) :
    normalize (normalize l) = normalize l := by
  have hA : noTagFrom (stripTags l) = true := noTagFrom_stripTags l
  have hB : noTagFrom (stripPunct (stripTags l)) = true := by
    rw [stripPunct]
    refine noTagFrom_filter ?_ (by decide) hA
    intro c hpc hc
    subst hc
    simp [isPunctB] at hpc
  have hC : noTagFrom (pyStrip (stripPunct (stripTags l))) = true :=
    noTagFrom_pyStrip hB
  have hD : noTagFrom (normalize l) = true := by
    rw [normalize, lowerList]
    exact noTagFrom_map lowerChar_eq_lt lowerChar_eq_gt hC
  have h1 : stripTags (normalize l) = normalize l := stripTags_id hD
  have h2 : stripPunct (normalize l) = normalize l := by
    rw [stripPunct]
    refine List.filter_eq_self.mpr ?_
    intro c hc
    rw [Bool.not_eq_true', normalize_punct_free l c hc]
  have h3 : pyStrip (normalize l) = normalize l := by
    rw [normalize, pyStrip_lowerList, pyStrip_idem]
  have h4 : lowerList (normalize l) = normalize l := by
    rw [normalize, lowerList_idem]
  calc normalize (normalize l)
      = lowerList (pyStrip (stripPunct (stripTags (normalize l)))) := rfl
    _ = lowerList (pyStrip (stripPunct (normalize l))) := by rw [h1]
    _ = lowerList (pyStrip (normalize l)) := by rw [h2]
    _ = lowerList (normalize l) := by rw [h3]
    _ = normalize l := h4

/-- Claim C7: `normalize` removes the angle-bracket markup and the fixed
punctuation set, trims and lowercases; no punctuation character survives in
its output, and both example inputs normalize to `fire shard`. -/
theorem c7_normalize_behaviour :
    (∀ (l : Line) (c : Char), c ∈ normalize l → isPunctB c = false)
    ∧ normalize "<Emphasis>Fire Shard</Emphasis>".data = "fire shard".data
    ∧ normalize "fire shard".data = "fire shard".data :=
  ⟨normalize_punct_free, by decide, by decide⟩

theorem c7_witness :
    ('i' ∈ normalize "Fire!".data) ∧ isPunctB 'i' = false :=
  ⟨by decide, c7_normalize_behaviour.1 "Fire!".data 'i' (by decide)⟩

end Replacer
